import Mathlib

/-!
Verification of the cascading filter span processor
(processor/cascadingfilterprocessor/processor.go) against its
natural-language specification.  The Go code is shallowly embedded: the
mutable processor state becomes explicit state records threaded through
pure functions, `int64` counters become `Int`, span attribute doubles
become `ℚ`, and the two loops of `samplingPolicyOnTick` become list
recursions that thread the rate-arbiter state in batch order.
-/

namespace CascadingFilter

/-- The sampling decision enumeration of the `sampling` package, as used by
`processor.go` (constructors `Unspecified`, `Pending`, `Sampled`,
`NotSampled`, `SecondChance`). -/
inductive Decision where
  | Unspecified
  | Pending
  | Sampled
  | NotSampled
  | SecondChance
deriving DecidableEq, Repr

/-- Result of one call to `policy.Evaluator.Evaluate`: either a decision or
an error (the Go `(Decision, error)` pair with non-nil error). -/
inductive EvalResult where
  | ok (d : Decision)
  | err
deriving DecidableEq, Repr

/-- The rate-arbiter fields of `cascadingFilterSpanProcessor`:
`currentSecond`, `spansInCurrentSecond` and `maxSpansPerSecond`. -/
structure RateState where
  currentSecond : Int
  spansInCurrentSecond : Int
  maxSpansPerSecond : Int
deriving DecidableEq, Repr

/-- Embedding of `updateRate` (processor.go lines 166-179): reset the
counter when the second changed, then admit the spans iff they fit in the
budget. -/
def updateRate (cp : RateState) (currSecond numSpans : Int) : RateState × Decision :=
  let cp1 := if cp.currentSecond ≠ currSecond then
      { cp with currentSecond := currSecond, spansInCurrentSecond := 0 }
    else cp
  let spansInSecondIfSampled := cp1.spansInCurrentSecond + numSpans
  if spansInSecondIfSampled ≤ cp1.maxSpansPerSecond then
    ({ cp1 with spansInCurrentSecond := spansInSecondIfSampled }, Decision.Sampled)
  else
    (cp1, Decision.NotSampled)

/-- Specification-side arbiter, written from the spec's words (section 4.D):
"if now_second differs from the stored second, reset the counter; then if
spans_in_current_second + n_spans is at most max_spans_per_second,
increment and return Sampled; else return NotSampled".  Used only to be
compared against `updateRate`. -/
def admitSpec (st : RateState) (nowSecond nSpans : Int) : RateState × Decision :=
  let st1 := if nowSecond ≠ st.currentSecond then
      { st with currentSecond := nowSecond, spansInCurrentSecond := 0 }
    else st
  if st1.spansInCurrentSecond + nSpans ≤ st1.maxSpansPerSecond then
    ({ st1 with spansInCurrentSecond := st1.spansInCurrentSecond + nSpans }, Decision.Sampled)
  else
    (st1, Decision.NotSampled)

/-- Span attribute values; only the distinctions used by the code matter
(double-typed or not).  Go `float64` is modelled exactly by `ℚ`. -/
inductive AttrValue where
  | double (v : ℚ)
  | int (v : Int)
  | str (s : String)
deriving DecidableEq, Repr

/-- A span: its trace id bytes and its attribute map (association list with
unique keys, first-match lookup as in pdata.AttributeMap). -/
structure Span where
  traceId : List Nat
  attrs : List (String × AttrValue)
deriving DecidableEq, Repr

/-- InstrumentationLibrarySpans: a list of spans. -/
abbrev ILSpans := List Span

/-- ResourceSpans: a list of instrumentation-library span groups. -/
abbrev ResourceSpansT := List ILSpans

/-- pdata.Traces: a list of ResourceSpans. -/
abbrev TracesT := List ResourceSpansT

/-- The conventions.AttributeSamplingProbability key. -/
def attributeSamplingProbability : String := "sampling.probability"

/-- Lookup of an attribute by key (pdata `attrs.Get`). -/
def getAttr : List (String × AttrValue) → String → Option AttrValue
  | [], _ => none
  | (k', v') :: rest, k => if k' = k then some v' else getAttr rest k

/-- Update-or-append of an attribute (pdata `Upsert` semantics; also models
`SetDoubleVal` on a present key, which keeps the key's position). -/
def upsertAttr : List (String × AttrValue) → String → AttrValue → List (String × AttrValue)
  | [], k, v => [(k, v)]
  | (k', v') :: rest, k, v =>
      if k' = k then (k, v) :: rest else (k', v') :: upsertAttr rest k v

/-- Per-span body of `updateProbabilisticRateTag`: if `sampling.probability`
is present as a double, multiply it by the ratio; otherwise upsert the
ratio. -/
def tagSpan (r : ℚ) (sp : Span) : Span :=
  match getAttr sp.attrs attributeSamplingProbability with
  | some (AttrValue.double d) =>
      { sp with attrs := upsertAttr sp.attrs attributeSamplingProbability (AttrValue.double (d * r)) }
  | _ =>
      { sp with attrs := upsertAttr sp.attrs attributeSamplingProbability (AttrValue.double r) }

/-- Embedding of `updateProbabilisticRateTag` (processor.go lines 302-322):
ratio = probabilisticSpans / allSpans, applied to every span of the
traces. -/
def updateProbabilisticRateTag (traces : TracesT) (probabilisticSpans allSpans : Int) : TracesT :=
  let r : ℚ := (probabilisticSpans : ℚ) / (allSpans : ℚ)
  traces.map (fun rs => rs.map (fun ils => ils.map (tagSpan r)))

/-- All spans of a Traces value, flattened. -/
def flatSpans (t : TracesT) : List Span := t.flatten.flatten

/-- A trace record (`sampling.TraceData`) with the fields `processor.go`
reads and writes.  Times are omitted (pure observability). -/
structure TraceData where
  decisions : List Decision
  spanCount : Int
  finalDecision : Decision
  selectedByProbabilisticFilter : Bool
  receivedBatches : List TracesT
deriving DecidableEq, Repr

/-- A policy as far as the decision logic is concerned: only its
`probabilisticFilter` flag influences control flow (name and metric
context are observability). -/
structure Policy where
  probabilisticFilter : Bool
deriving DecidableEq, Repr

/-- The decision written into `trace.Decisions[i]` for one policy: an
evaluation error is recorded as NotSampled, a successful evaluation as the
decision it returned (processor.go lines 335-340). -/
def evalToDecision : EvalResult → Decision
  | EvalResult.ok d => d
  | EvalResult.err => Decision.NotSampled

/-- How one policy's evaluation outcome updates the provisional decision
(the `switch decision` of processor.go lines 342-379): Sampled always
wins; NotSampled only replaces Unspecified; SecondChance replaces
anything but Sampled; an error (or an out-of-range decision) changes
nothing. -/
def provStep (prov : Decision) (e : EvalResult) : Decision :=
  match e with
  | EvalResult.err => prov
  | EvalResult.ok d =>
    match d with
    | Decision.Sampled => Decision.Sampled
    | Decision.NotSampled => if prov = Decision.Unspecified then Decision.NotSampled else prov
    | Decision.SecondChance => if prov ≠ Decision.Sampled then Decision.SecondChance else prov
    | _ => prov

/-- How one policy's evaluation outcome updates the matching policy: the
first policy returning Sampled is kept (processor.go lines 347-349). -/
def matchStep (matching : Option Nat) (i : Nat) (e : EvalResult) : Option Nat :=
  if e = EvalResult.ok Decision.Sampled then
    match matching with
    | none => some i
    | some j => some j
  else matching

/-- How one policy's evaluation outcome updates the
`SelectedByProbabilisticFilter` flag (processor.go lines 351-353). -/
def selStep (selected : Bool) (p : Policy) (e : EvalResult) : Bool :=
  if e = EvalResult.ok Decision.Sampled ∧ p.probabilisticFilter then true else selected

/-- The loop of `makeProvisionalDecision` (processor.go lines 328-381),
recursing over the policy list and the aligned list of evaluation
outcomes.  `i` is the running policy index; the accumulators are the
provisional decision, the matching-policy index, and the
`SelectedByProbabilisticFilter` flag.  Returns the final accumulators plus
the per-policy decision list written into `trace.Decisions` (the source
overwrites an array of the same length in place; every construction site
makes the array exactly as long as the policy list). -/
def mpdGo (i : Nat) : List Policy → List EvalResult →
    Decision → Option Nat → Bool → Decision × Option Nat × List Decision × Bool
  | p :: ps', e :: es', prov, matching, selected =>
    let r := mpdGo (i + 1) ps' es' (provStep prov e) (matchStep matching i e) (selStep selected p e)
    (r.1, r.2.1, evalToDecision e :: r.2.2.1, r.2.2.2)
  | _, _, prov, matching, selected => (prov, matching, [], selected)

/-- Embedding of `makeProvisionalDecision`: starts from `Unspecified` with
no matching policy, returns the provisional decision, the matching policy
index, and the updated trace record. -/
def makeProvisionalDecision (ps : List Policy) (es : List EvalResult) (tr : TraceData) :
    Decision × Option Nat × TraceData :=
  let r := mpdGo 0 ps es Decision.Unspecified none tr.selectedByProbabilisticFilter
  (r.1, r.2.1, { tr with decisions := r.2.2.1, selectedByProbabilisticFilter := r.2.2.2 })

/-- One batch entry of a tick: the trace record loaded from the map and the
outcome each policy's `Evaluate` call will return for it. -/
structure TickInput where
  trace : TraceData
  evals : List EvalResult
deriving Repr

/-- Accumulator of the first pass of `samplingPolicyOnTick`: the arbiter
state, the `totalSpans` and `selectedByProbabilisticFilterSpans` counters,
and the trace records in batch order. -/
structure Pass1Acc where
  st : RateState
  totalSpans : Int
  probSpans : Int
  out : List TraceData
deriving Repr

/-- First-pass body for one trace (processor.go lines 195-234): accumulate
`totalSpans`, make the provisional decision, and on provisional `Sampled`
consult the rate arbiter, crediting `probSpans` when an admitted trace was
selected by the probabilistic filter. -/
def tickPass1Step (ps : List Policy) (currSecond : Int) (acc : Pass1Acc) (b : TickInput) :
    Pass1Acc :=
  let totalSpans := acc.totalSpans + b.trace.spanCount
  let pd := makeProvisionalDecision ps b.evals b.trace
  let prov := pd.1
  let tr := pd.2.2
  if prov = Decision.Sampled then
    let ur := updateRate acc.st currSecond tr.spanCount
    let tr1 := { tr with finalDecision := ur.2 }
    let probSpans :=
      if ur.2 = Decision.Sampled ∧ tr1.selectedByProbabilisticFilter then
        acc.probSpans + tr1.spanCount
      else acc.probSpans
    { st := ur.1, totalSpans := totalSpans, probSpans := probSpans, out := acc.out ++ [tr1] }
  else if prov = Decision.SecondChance then
    { acc with totalSpans := totalSpans,
               out := acc.out ++ [{ tr with finalDecision := Decision.SecondChance }] }
  else
    { acc with totalSpans := totalSpans,
               out := acc.out ++ [{ tr with finalDecision := prov }] }

/-- The first pass over the whole batch. -/
def tickPass1 (ps : List Policy) (currSecond : Int) (acc : Pass1Acc) :
    List TickInput → Pass1Acc
  | [] => acc
  | b :: bs => tickPass1 ps currSecond (tickPass1Step ps currSecond acc b) bs

/-- MoveAndAppendTo-concatenation of the received batches into one Traces
value. -/
def concatTraces (bs : List TracesT) : TracesT := bs.flatten

/-- Second-pass body for one trace (processor.go lines 237-285): arbitrate
a `SecondChance` decision, detach `receivedBatches` regardless of the
decision, and emit the concatenated (and, for probabilistic selections,
tagged) trace iff the final decision is `Sampled`. -/
def tickPass2One (currSecond probSpans totalSpans : Int) (st : RateState) (tr : TraceData) :
    RateState × TraceData × Option TracesT :=
  let a :=
    if tr.finalDecision = Decision.SecondChance then
      let ur := updateRate st currSecond tr.spanCount
      (ur.1, { tr with finalDecision := ur.2 })
    else (st, tr)
  let st1 := a.1
  let traceBatches := a.2.receivedBatches
  let tr2 := { a.2 with receivedBatches := [] }
  if tr2.finalDecision = Decision.Sampled then
    let allSpans := concatTraces traceBatches
    let allSpans1 :=
      if tr2.selectedByProbabilisticFilter then
        updateProbabilisticRateTag allSpans probSpans totalSpans
      else allSpans
    (st1, tr2, some allSpans1)
  else
    (st1, tr2, none)

/-- The second pass over the batch, returning the arbiter state plus, per
trace, the final record and the trace forwarded downstream (if any). -/
def tickPass2 (currSecond probSpans totalSpans : Int) (st : RateState) :
    List TraceData → RateState × List (TraceData × Option TracesT)
  | [] => (st, [])
  | tr :: rest =>
    let r1 := tickPass2One currSecond probSpans totalSpans st tr
    let r2 := tickPass2 currSecond probSpans totalSpans r1.1 rest
    (r2.1, (r1.2.1, r1.2.2) :: r2.2)

/-- Embedding of `samplingPolicyOnTick` (processor.go lines 181-300): run
the first pass over the batch, then the second pass with the accumulated
`probSpans` and `totalSpans` counters and the threaded arbiter state.
Ids whose record was already evicted are skipped by the source in both
passes and are simply absent from `batch` here. -/
def samplingPolicyOnTick (ps : List Policy) (currSecond : Int) (st : RateState)
    (batch : List TickInput) : RateState × List (TraceData × Option TracesT) :=
  let a := tickPass1 ps currSecond { st := st, totalSpans := 0, probSpans := 0, out := [] } batch
  tickPass2 currSecond a.probSpans a.totalSpans a.st a.out

/-- Spans admitted so far within second `s`: the arbiter counter if the
stored second is `s`, else (counting the pending reset) zero. -/
def secondBudget (st : RateState) (s : Int) : Int :=
  if st.currentSecond = s then st.spansInCurrentSecond else 0

/-- Sum of span counts over the traces whose final decision is Sampled. -/
def sampledSum (l : List TraceData) : Int :=
  ((l.filter (fun tr => tr.finalDecision = Decision.Sampled)).map (fun tr => tr.spanCount)).sum

/-- Sum of span counts over the traces the second pass forwarded
downstream. -/
def emittedSpans (outs : List (TraceData × Option TracesT)) : Int :=
  ((outs.filter (fun o => o.2.isSome)).map (fun o => o.1.spanCount)).sum

/-- Embedding of `prepareTraceBatch`: one resource-spans entry with one
instrumentation-library group holding the given spans. -/
def prepareTraceBatch (spans : List Span) : TracesT := [[spans]]

/-- Observable actions of the ingest policy loop for an already-recorded
trace: a one-off forwarded trace, an `OnLateArrivingSpans` call, or the
unexpected-decision warning. -/
inductive LateEvent where
  | emitted (i : Nat) (td : TracesT)
  | lateHook (i : Nat) (d : Decision)
  | warned (i : Nat)
deriving DecidableEq, Repr

/-- The policy loop of `processTraces` (processor.go lines 465-511) over
the per-policy decisions of one trace, with `i` the running policy index:
a Pending entry appends the span group (signalled by the Boolean) and
breaks; a Sampled entry forwards the one-off trace, fires the late hook
and breaks; NotSampled fires the hook and continues; SecondChance
continues silently; anything else logs a warning and continues. -/
def ingestGo (grp : List Span) (i : Nat) : List Decision → Bool × List LateEvent
  | [] => (false, [])
  | d :: rest =>
    match d with
    | Decision.Pending => (true, [])
    | Decision.Sampled =>
        (false, [LateEvent.emitted i (prepareTraceBatch grp), LateEvent.lateHook i Decision.Sampled])
    | Decision.NotSampled =>
        let r := ingestGo grp (i + 1) rest
        (r.1, LateEvent.lateHook i Decision.NotSampled :: r.2)
    | Decision.SecondChance => ingestGo grp (i + 1) rest
    | Decision.Unspecified =>
        let r := ingestGo grp (i + 1) rest
        (r.1, LateEvent.warned i :: r.2)

/-- Ingest handling of one span group against one trace record: the new
`receivedBatches` (appended to at most once, only on a Pending entry) and
the emitted late events. -/
def ingestSpansForTrace (decisions : List Decision) (received : List TracesT)
    (grp : List Span) : List TracesT × List LateEvent :=
  let r := ingestGo grp 0 decisions
  (if r.1 then received ++ [prepareTraceBatch grp] else received, r.2)

/-- Trace ids are byte strings (16 bytes when well-formed). -/
abbrev TraceKey := List Nat

/-- The trace-store view of the processor: the id-to-trace map's key set,
the `numTracesOnMap` counter, the `deleteChan` FIFO contents and its
capacity (`cfg.NumTraces`). -/
structure StoreState where
  store : List TraceKey
  numTracesOnMap : Nat
  fifo : List TraceKey
  cap : Nat
deriving DecidableEq, Repr

/-- Embedding of `dropTrace` (processor.go lines 531-545): delete the id
from the map and decrement the live counter when present; otherwise only
log. -/
def dropTrace (st : StoreState) (k : TraceKey) : StoreState :=
  if k ∈ st.store then
    { st with store := st.store.erase k, numTracesOnMap := st.numTracesOnMap - 1 }
  else st

/-- The new-trace branch of `processTraces` (lines 446-463): store the
record, increment the live counter, then push the id onto the bounded
FIFO; when the FIFO is full, drain the oldest id and drop its trace
first (the source loops, but one drain frees a slot).  The empty-FIFO
zero-capacity case would block forever in the source and is unreachable
under the invariants proved below. -/
def insertNewTrace (st : StoreState) (k : TraceKey) : StoreState :=
  let st1 : StoreState :=
    { st with store := st.store ++ [k], numTracesOnMap := st.numTracesOnMap + 1 }
  if st1.fifo.length < st1.cap then
    { st1 with fifo := st1.fifo ++ [k] }
  else
    match st1.fifo with
    | [] => st1
    | oldest :: rest =>
      let st2 := dropTrace { st1 with fifo := rest } oldest
      { st2 with fifo := st2.fifo ++ [k] }

/-- Association-list update used to model the Go `idToSpans` map: append
the span to its key's group, creating the group on first sight. -/
def groupInsert (m : List (TraceKey × List Span)) (k : TraceKey) (sp : Span) :
    List (TraceKey × List Span) :=
  match m with
  | [] => [(k, [sp])]
  | (k', sps) :: rest =>
      if k' = k then (k', sps ++ [sp]) :: rest else (k', sps) :: groupInsert rest k sp

/-- The span loop of `groupSpansByTraceKey`, also counting the warnings
logged for trace ids that are not 16 bytes. -/
def groupGo (acc : List (TraceKey × List Span) × Nat) :
    List Span → List (TraceKey × List Span) × Nat
  | [] => acc
  | sp :: rest =>
      let warn := if sp.traceId.length ≠ 16 then acc.2 + 1 else acc.2
      groupGo (groupInsert acc.1 sp.traceId sp, warn) rest

/-- Embedding of `groupSpansByTraceKey` (processor.go lines 403-422): group
every span of every instrumentation-library group under its trace id
bytes, warning on ids that are not 16 bytes. -/
def groupSpansByTraceKey (ilss : List (List Span)) :
    List (TraceKey × List Span) × Nat :=
  groupGo ([], 0) ilss.flatten

/-- Lookup of a key's span group in the grouping result. -/
def lookupGroup (m : List (TraceKey × List Span)) (k : TraceKey) : List Span :=
  match m with
  | [] => []
  | (k', sps) :: rest => if k' = k then sps else lookupGroup rest k

/-- Index of the first evaluation outcome that is a successful Sampled. -/
def firstSampledIdx : List EvalResult → Option Nat
  | [] => none
  | e :: es =>
      if e = EvalResult.ok Decision.Sampled then some 0
      else (firstSampledIdx es).map (fun j => j + 1)

/-- Index of the first occurrence of a decision in a decision list. -/
def firstDecisionIdx (d : Decision) : List Decision → Option Nat
  | [] => none
  | x :: rest =>
      if x = d then some 0 else (firstDecisionIdx d rest).map (fun j => j + 1)

/-- Consistency of the trace-store view: the eviction FIFO lists exactly
the live ids in insertion order, the live counter agrees with the map
size, and the size respects the `num_traces` ceiling (the FIFO capacity). -/
def storeInv (st : StoreState) : Prop :=
  st.fifo = st.store ∧ st.numTracesOnMap = st.store.length ∧ st.store.length ≤ st.cap

/-!
## Theorems
-/

/-- Claim C2: the rate arbiter's admit operation behaves exactly as
specified: a differing second resets the counter and updates the stored
second; then the spans are admitted (counter incremented, Sampled) iff
they fit in the budget, and otherwise the counter is left unchanged and
NotSampled is returned.  Stated both as a refinement against the
spec-side `admitSpec` and as a direct characterisation. -/
theorem updateRate_matches_admit_spec (st : RateState) (s n : Int) :
    updateRate st s n = admitSpec st s n ∧
    (updateRate st s n).1.currentSecond = s ∧
    (updateRate st s n).1.maxSpansPerSecond = st.maxSpansPerSecond ∧
    (secondBudget st s + n ≤ st.maxSpansPerSecond →
      (updateRate st s n).2 = Decision.Sampled ∧
      (updateRate st s n).1.spansInCurrentSecond = secondBudget st s + n) ∧
    (st.maxSpansPerSecond < secondBudget st s + n →
      (updateRate st s n).2 = Decision.NotSampled ∧
      (updateRate st s n).1.spansInCurrentSecond = secondBudget st s) := by
  by_cases h : st.currentSecond = s
  · by_cases h2 : st.spansInCurrentSecond + n ≤ st.maxSpansPerSecond <;>
      simp [updateRate, admitSpec, secondBudget, h, h2]
  · have h3 : ¬ s = st.currentSecond := fun hh => h hh.symm
    by_cases h2 : n ≤ st.maxSpansPerSecond <;>
      simp [updateRate, admitSpec, secondBudget, h, h3, h2]

/-- Witness for claim C2's theorem at a concrete state. -/
theorem updateRate_matches_admit_spec_witness :
    (updateRate ⟨7, 4, 10⟩ 7 3).2 = Decision.Sampled ∧
    (updateRate ⟨7, 4, 10⟩ 7 3).1.spansInCurrentSecond = secondBudget ⟨7, 4, 10⟩ 7 + 3 :=
  (updateRate_matches_admit_spec ⟨7, 4, 10⟩ 7 3).2.2.2.1 (by decide)

lemma mpdGo_prov (i : Nat) (ps : List Policy) (es : List EvalResult)
    (prov : Decision) (m : Option Nat) (sel : Bool) :
    (mpdGo i ps es prov m sel).1 = (es.take ps.length).foldl provStep prov := by
  induction ps generalizing i es prov m sel with
  | nil => cases es <;> simp [mpdGo]
  | cons p ps ih =>
    cases es with
    | nil => simp [mpdGo]
    | cons e es => simp [mpdGo, ih]

lemma mpdGo_decisions (i : Nat) (ps : List Policy) (es : List EvalResult)
    (prov : Decision) (m : Option Nat) (sel : Bool) :
    (mpdGo i ps es prov m sel).2.2.1 = (es.take ps.length).map evalToDecision := by
  induction ps generalizing i es prov m sel with
  | nil => cases es <;> simp [mpdGo]
  | cons p ps ih =>
    cases es with
    | nil => simp [mpdGo]
    | cons e es => simp [mpdGo, ih]

lemma matchStep_some (j i : Nat) (e : EvalResult) : matchStep (some j) i e = some j := by
  unfold matchStep
  split <;> rfl

lemma mpdGo_matching_some (i : Nat) (ps : List Policy) (es : List EvalResult)
    (prov : Decision) (j : Nat) (sel : Bool) :
    (mpdGo i ps es prov (some j) sel).2.1 = some j := by
  induction ps generalizing i es prov sel with
  | nil => cases es <;> simp [mpdGo]
  | cons p ps ih =>
    cases es with
    | nil => simp [mpdGo]
    | cons e es => simp [mpdGo, matchStep_some, ih]

lemma mpdGo_matching_none (i : Nat) (ps : List Policy) (es : List EvalResult)
    (prov : Decision) (sel : Bool) :
    (mpdGo i ps es prov none sel).2.1 =
      (firstSampledIdx (es.take ps.length)).map (fun j => j + i) := by
  induction ps generalizing i es prov sel with
  | nil => cases es <;> simp [mpdGo, firstSampledIdx]
  | cons p ps ih =>
    cases es with
    | nil => simp [mpdGo, firstSampledIdx]
    | cons e es =>
      by_cases he : e = EvalResult.ok Decision.Sampled
      · subst he
        simp [mpdGo, matchStep, firstSampledIdx, mpdGo_matching_some]
      · simp only [mpdGo, matchStep, if_neg he, List.take_succ_cons, firstSampledIdx, ih]
        cases firstSampledIdx (es.take ps.length) with
        | none => simp
        | some j => simp [he]; omega

lemma provStep_sampled (e : EvalResult) : provStep Decision.Sampled e = Decision.Sampled := by
  cases e with
  | err => rfl
  | ok d => cases d <;> simp [provStep]

lemma provFold_sampled_absorb (es : List EvalResult) :
    es.foldl provStep Decision.Sampled = Decision.Sampled := by
  induction es with
  | nil => rfl
  | cons e es ih => simp [provStep_sampled, ih]

lemma provFold_mem_sampled (es : List EvalResult) (prov : Decision)
    (h : EvalResult.ok Decision.Sampled ∈ es) :
    es.foldl provStep prov = Decision.Sampled := by
  induction es generalizing prov with
  | nil => cases h
  | cons e es ih =>
    rcases List.mem_cons.mp h with h1 | h2
    · subst h1
      simp [provStep, provFold_sampled_absorb]
    · exact ih _ h2

lemma provStep_ne_sampled (prov : Decision) (e : EvalResult)
    (hp : prov ≠ Decision.Sampled) (he : e ≠ EvalResult.ok Decision.Sampled) :
    provStep prov e ≠ Decision.Sampled := by
  cases e with
  | err => simpa [provStep] using hp
  | ok d =>
    cases d with
    | Sampled => exact absurd rfl he
    | NotSampled => by_cases hu : prov = Decision.Unspecified <;> simp [provStep, hu, hp]
    | SecondChance => simp [provStep, hp]
    | Pending => simpa [provStep] using hp
    | Unspecified => simpa [provStep] using hp

lemma provStep_sc (prov : Decision) (e : EvalResult)
    (hp : prov = Decision.SecondChance) (he : e ≠ EvalResult.ok Decision.Sampled) :
    provStep prov e = Decision.SecondChance := by
  subst hp
  cases e with
  | err => rfl
  | ok d => cases d <;> simp [provStep] at he ⊢

lemma provFold_sc_absorb (es : List EvalResult)
    (h : EvalResult.ok Decision.Sampled ∉ es) :
    es.foldl provStep Decision.SecondChance = Decision.SecondChance := by
  induction es with
  | nil => rfl
  | cons e es ih =>
    have he : e ≠ EvalResult.ok Decision.Sampled := fun hh => h (hh ▸ List.mem_cons_self e es)
    have htl : EvalResult.ok Decision.Sampled ∉ es := fun hh => h (List.mem_cons_of_mem e hh)
    simp only [List.foldl_cons, provStep_sc _ _ rfl he]
    exact ih htl

lemma provFold_mem_sc (es : List EvalResult) (prov : Decision)
    (hp : prov ≠ Decision.Sampled)
    (hn : EvalResult.ok Decision.Sampled ∉ es)
    (h : EvalResult.ok Decision.SecondChance ∈ es) :
    es.foldl provStep prov = Decision.SecondChance := by
  induction es generalizing prov with
  | nil => cases h
  | cons e es ih =>
    have he : e ≠ EvalResult.ok Decision.Sampled := fun hh => hn (hh ▸ List.mem_cons_self e es)
    have htl : EvalResult.ok Decision.Sampled ∉ es := fun hh => hn (List.mem_cons_of_mem e hh)
    rcases List.mem_cons.mp h with h1 | h2
    · subst h1
      have : provStep prov (EvalResult.ok Decision.SecondChance) = Decision.SecondChance := by
        simp [provStep, hp]
      simp only [List.foldl_cons, this]
      exact provFold_sc_absorb es htl
    · exact ih _ (provStep_ne_sampled prov e hp he) htl h2

lemma provFold_stay_ns (es : List EvalResult)
    (hr : ∀ e ∈ es, e = EvalResult.err ∨ e = EvalResult.ok Decision.NotSampled) :
    es.foldl provStep Decision.NotSampled = Decision.NotSampled := by
  induction es with
  | nil => rfl
  | cons e es ih =>
    have hstep : provStep Decision.NotSampled e = Decision.NotSampled := by
      rcases hr e (List.mem_cons_self e es) with h | h <;> subst h <;> simp [provStep]
    simp only [List.foldl_cons, hstep]
    exact ih (fun x hx => hr x (List.mem_cons_of_mem e hx))

lemma provFold_ns (es : List EvalResult) (prov : Decision)
    (hp : prov = Decision.Unspecified ∨ prov = Decision.NotSampled)
    (hr : ∀ e ∈ es, e = EvalResult.err ∨ e = EvalResult.ok Decision.NotSampled)
    (hex : ∃ e ∈ es, e ≠ EvalResult.err) :
    es.foldl provStep prov = Decision.NotSampled := by
  induction es generalizing prov with
  | nil => obtain ⟨e, he, _⟩ := hex; cases he
  | cons e es ih =>
    have hrtl : ∀ x ∈ es, x = EvalResult.err ∨ x = EvalResult.ok Decision.NotSampled :=
      fun x hx => hr x (List.mem_cons_of_mem e hx)
    rcases hr e (List.mem_cons_self e es) with h | h
    · subst h
      have hstep : provStep prov EvalResult.err = prov := rfl
      simp only [List.foldl_cons, hstep]
      obtain ⟨x, hx, hxe⟩ := hex
      rcases List.mem_cons.mp hx with h1 | h2
      · exact absurd h1 hxe
      · exact ih prov hp hrtl ⟨x, h2, hxe⟩
    · subst h
      have hstep : provStep prov (EvalResult.ok Decision.NotSampled) = Decision.NotSampled := by
        rcases hp with h | h <;> subst h <;> simp [provStep]
      simp only [List.foldl_cons, hstep]
      exact provFold_stay_ns es hrtl

lemma provFold_all_err (es : List EvalResult) (prov : Decision)
    (h : ∀ e ∈ es, e = EvalResult.err) :
    es.foldl provStep prov = prov := by
  induction es with
  | nil => rfl
  | cons e es ih =>
    have he := h e (List.mem_cons_self e es)
    subst he
    exact ih (fun x hx => h x (List.mem_cons_of_mem _ hx))

lemma firstSampledIdx_none (es : List EvalResult)
    (h : EvalResult.ok Decision.Sampled ∉ es) : firstSampledIdx es = none := by
  induction es with
  | nil => rfl
  | cons e es ih =>
    have he : e ≠ EvalResult.ok Decision.Sampled := fun hh => h (hh ▸ List.mem_cons_self e es)
    have htl : EvalResult.ok Decision.Sampled ∉ es := fun hh => h (List.mem_cons_of_mem e hh)
    simp [firstSampledIdx, he, ih htl]

/-- Claim C3: the provisional decision is the first Sampled result over the
ordered policy list if any policy returned Sampled, else SecondChance if
any returned SecondChance, else NotSampled (provided some policy returned
a decision at all); the per-policy decision array records each policy's
result (errors as NotSampled), and the matching policy is the first one
that returned Sampled. -/
theorem makeProvisionalDecision_first_sampled_wins
    (ps : List Policy) (es : List EvalResult) (tr : TraceData)
    (hlen : es.length = ps.length)
    (hrange : ∀ e ∈ es, e = EvalResult.err ∨ e = EvalResult.ok Decision.Sampled ∨
      e = EvalResult.ok Decision.NotSampled ∨ e = EvalResult.ok Decision.SecondChance) :
    ((makeProvisionalDecision ps es tr).2.2).decisions = es.map evalToDecision ∧
    (makeProvisionalDecision ps es tr).2.1 = firstSampledIdx es ∧
    (EvalResult.ok Decision.Sampled ∈ es →
      (makeProvisionalDecision ps es tr).1 = Decision.Sampled) ∧
    (EvalResult.ok Decision.Sampled ∉ es → EvalResult.ok Decision.SecondChance ∈ es →
      (makeProvisionalDecision ps es tr).1 = Decision.SecondChance) ∧
    (EvalResult.ok Decision.Sampled ∉ es → EvalResult.ok Decision.SecondChance ∉ es →
      (∃ e ∈ es, e ≠ EvalResult.err) →
      (makeProvisionalDecision ps es tr).1 = Decision.NotSampled) := by
  have htake : es.take ps.length = es := by
    rw [← hlen]
    exact List.take_length es
  refine ⟨?_, ?_, ?_, ?_, ?_⟩
  · simp only [makeProvisionalDecision, mpdGo_decisions, htake]
  · simp only [makeProvisionalDecision, mpdGo_matching_none, htake]
    cases firstSampledIdx es <;> simp
  · intro h
    simp only [makeProvisionalDecision, mpdGo_prov, htake]
    exact provFold_mem_sampled es _ h
  · intro hn h
    simp only [makeProvisionalDecision, mpdGo_prov, htake]
    exact provFold_mem_sc es _ (by simp) hn h
  · intro hn hsc hex
    simp only [makeProvisionalDecision, mpdGo_prov, htake]
    refine provFold_ns es _ (Or.inl rfl) ?_ hex
    intro e he
    rcases hrange e he with h | h | h | h
    · exact Or.inl h
    · exact absurd (h ▸ he) hn
    · exact Or.inr h
    · exact absurd (h ▸ he) hsc

/-- Witness for claim C3's theorem at a concrete policy and evaluation
list. -/
theorem makeProvisionalDecision_first_sampled_wins_witness :
    ((makeProvisionalDecision [⟨false⟩, ⟨false⟩]
        [EvalResult.ok Decision.NotSampled, EvalResult.ok Decision.Sampled]
        ⟨[Decision.Pending, Decision.Pending], 1, Decision.Unspecified, false, []⟩).2.2).decisions
      = [EvalResult.ok Decision.NotSampled, EvalResult.ok Decision.Sampled].map evalToDecision ∧
    (makeProvisionalDecision [⟨false⟩, ⟨false⟩]
        [EvalResult.ok Decision.NotSampled, EvalResult.ok Decision.Sampled]
        ⟨[Decision.Pending, Decision.Pending], 1, Decision.Unspecified, false, []⟩).2.1
      = firstSampledIdx [EvalResult.ok Decision.NotSampled, EvalResult.ok Decision.Sampled] ∧
    (makeProvisionalDecision [⟨false⟩, ⟨false⟩]
        [EvalResult.ok Decision.NotSampled, EvalResult.ok Decision.Sampled]
        ⟨[Decision.Pending, Decision.Pending], 1, Decision.Unspecified, false, []⟩).1
      = Decision.Sampled := by
  have h := makeProvisionalDecision_first_sampled_wins [⟨false⟩, ⟨false⟩]
    [EvalResult.ok Decision.NotSampled, EvalResult.ok Decision.Sampled]
    ⟨[Decision.Pending, Decision.Pending], 1, Decision.Unspecified, false, []⟩
    (by decide) (by decide)
  exact ⟨h.1, h.2.1, h.2.2.1 (by decide)⟩

lemma updateRate_cases (st : RateState) (s n : Int) :
    (updateRate st s n).1.maxSpansPerSecond = st.maxSpansPerSecond ∧
    (updateRate st s n).1.currentSecond = s ∧
    (((updateRate st s n).2 = Decision.Sampled ∧
        secondBudget st s + n ≤ st.maxSpansPerSecond ∧
        secondBudget (updateRate st s n).1 s = secondBudget st s + n) ∨
     ((updateRate st s n).2 = Decision.NotSampled ∧
        st.maxSpansPerSecond < secondBudget st s + n ∧
        secondBudget (updateRate st s n).1 s = secondBudget st s)) := by
  by_cases h : st.currentSecond = s
  · by_cases h2 : st.spansInCurrentSecond + n ≤ st.maxSpansPerSecond
    · simp [updateRate, secondBudget, h, h2]
    · simp [updateRate, secondBudget, h, h2]
      omega
  · have h3 : ¬ s = st.currentSecond := fun hh => h hh.symm
    by_cases h2 : n ≤ st.maxSpansPerSecond
    · simp [updateRate, secondBudget, h, h3, h2]
    · simp [updateRate, secondBudget, h, h3, h2]
      omega

lemma mpd_spanCount (ps : List Policy) (es : List EvalResult) (tr : TraceData) :
    (makeProvisionalDecision ps es tr).2.2.spanCount = tr.spanCount := by
  simp [makeProvisionalDecision]

lemma mpd_receivedBatches (ps : List Policy) (es : List EvalResult) (tr : TraceData) :
    (makeProvisionalDecision ps es tr).2.2.receivedBatches = tr.receivedBatches := by
  simp [makeProvisionalDecision]

/-- Claim C10: if every policy evaluation errors (in particular for an
empty policy list), the provisional decision stays Unspecified, no policy
matches, the first pass stores Unspecified as the final decision, and the
second pass detaches the batches without forwarding anything. -/
theorem all_policy_errors_yield_unspecified
    (ps : List Policy) (es : List EvalResult) (tr : TraceData)
    (herr : ∀ e ∈ es, e = EvalResult.err)
    (s p t : Int) (acc : Pass1Acc) (st : RateState) :
    (makeProvisionalDecision ps es tr).1 = Decision.Unspecified ∧
    (makeProvisionalDecision ps es tr).2.1 = none ∧
    (∃ tr1, (tickPass1Step ps s acc ⟨tr, es⟩).out = acc.out ++ [tr1] ∧
      tr1.finalDecision = Decision.Unspecified ∧
      (tickPass2One s p t st tr1).2.2 = none ∧
      (tickPass2One s p t st tr1).2.1.receivedBatches = []) := by
  have hprov : (makeProvisionalDecision ps es tr).1 = Decision.Unspecified := by
    simp only [makeProvisionalDecision, mpdGo_prov]
    exact provFold_all_err _ _ (fun e he => herr e (List.take_subset _ _ he))
  have hmatch : (makeProvisionalDecision ps es tr).2.1 = none := by
    simp only [makeProvisionalDecision, mpdGo_matching_none]
    rw [firstSampledIdx_none]
    · rfl
    · intro hmem
      have := herr _ (List.take_subset _ _ hmem)
      simp at this
  refine ⟨hprov, hmatch,
    ⟨{ (makeProvisionalDecision ps es tr).2.2 with finalDecision := Decision.Unspecified },
      ?_, rfl, ?_, ?_⟩⟩
  · simp [tickPass1Step, hprov]
  · simp [tickPass2One]
  · simp [tickPass2One]

/-- Witness for claim C10's theorem with one erroring policy. -/
theorem all_policy_errors_yield_unspecified_witness :
    (makeProvisionalDecision [⟨false⟩] [EvalResult.err]
        ⟨[Decision.Pending], 4, Decision.Unspecified, false, []⟩).1 = Decision.Unspecified ∧
    (makeProvisionalDecision [⟨false⟩] [EvalResult.err]
        ⟨[Decision.Pending], 4, Decision.Unspecified, false, []⟩).2.1 = none ∧
    (∃ tr1, (tickPass1Step [⟨false⟩] 0 ⟨⟨0, 0, 10⟩, 0, 0, []⟩
        ⟨⟨[Decision.Pending], 4, Decision.Unspecified, false, []⟩, [EvalResult.err]⟩).out
          = (⟨⟨0, 0, 10⟩, 0, 0, []⟩ : Pass1Acc).out ++ [tr1] ∧
      tr1.finalDecision = Decision.Unspecified ∧
      (tickPass2One 0 0 4 ⟨0, 0, 10⟩ tr1).2.2 = none ∧
      (tickPass2One 0 0 4 ⟨0, 0, 10⟩ tr1).2.1.receivedBatches = []) :=
  all_policy_errors_yield_unspecified [⟨false⟩] [EvalResult.err]
    ⟨[Decision.Pending], 4, Decision.Unspecified, false, []⟩
    (by decide) 0 0 4 ⟨⟨0, 0, 10⟩, 0, 0, []⟩ ⟨0, 0, 10⟩

/-- Counterexample to claim C4 as stated: with a single ordinary policy
returning Sampled, a 5-span trace and a global budget of 3 spans, the
provisional decision is Sampled and the spans do not fit, yet the first
pass records the final decision NotSampled — not SecondChance, so the
trace is not deferred to second-chance arbitration. -/
theorem firstPass_demotion_counterexample :
    (makeProvisionalDecision [⟨false⟩] [EvalResult.ok Decision.Sampled]
        ⟨[Decision.Pending], 5, Decision.Unspecified, false, []⟩).1 = Decision.Sampled ∧
    ¬ (0 : Int) + 5 ≤ (3 : Int) ∧
    (tickPass1Step [⟨false⟩] 0 ⟨⟨0, 0, 3⟩, 0, 0, []⟩
        ⟨⟨[Decision.Pending], 5, Decision.Unspecified, false, []⟩,
          [EvalResult.ok Decision.Sampled]⟩).out
      = [⟨[Decision.Sampled], 5, Decision.NotSampled, false, []⟩] ∧
    ¬ (tickPass1Step [⟨false⟩] 0 ⟨⟨0, 0, 3⟩, 0, 0, []⟩
        ⟨⟨[Decision.Pending], 5, Decision.Unspecified, false, []⟩,
          [EvalResult.ok Decision.Sampled]⟩).out
      = [⟨[Decision.Sampled], 5, Decision.SecondChance, false, []⟩] := by
  refine ⟨rfl, by decide, rfl, ?_⟩
  intro h
  have h3 : (⟨[Decision.Sampled], 5, Decision.NotSampled, false, []⟩ : TraceData)
      = ⟨[Decision.Sampled], 5, Decision.SecondChance, false, []⟩ := by
    have h4 : (tickPass1Step [⟨false⟩] 0 ⟨⟨0, 0, 3⟩, 0, 0, []⟩
        ⟨⟨[Decision.Pending], 5, Decision.Unspecified, false, []⟩,
          [EvalResult.ok Decision.Sampled]⟩).out
        = [⟨[Decision.Sampled], 5, Decision.NotSampled, false, []⟩] := rfl
    rw [h4] at h
    exact (List.cons.inj h).1
  exact absurd (congrArg TraceData.finalDecision h3) (by decide)

/-- Claim C4 (amended): when the provisional decision is Sampled but the
trace's spans do not fit in the remaining global budget, the first pass
stores the rate arbiter's NotSampled verdict as the final decision: the
trace is finally rejected in the first pass, not demoted to SecondChance.
-/
theorem firstPass_over_budget_rejects
    (ps : List Policy) (s : Int) (acc : Pass1Acc) (b : TickInput)
    (hprov : (makeProvisionalDecision ps b.evals b.trace).1 = Decision.Sampled)
    (hover : acc.st.maxSpansPerSecond < secondBudget acc.st s + b.trace.spanCount) :
    ∃ tr1, (tickPass1Step ps s acc b).out = acc.out ++ [tr1] ∧
      tr1.finalDecision = Decision.NotSampled := by
  have hspan := mpd_spanCount ps b.evals b.trace
  have hur := (updateRate_cases acc.st s ((makeProvisionalDecision ps b.evals b.trace).2.2.spanCount)).2.2
  rw [hspan] at hur
  have hd : (updateRate acc.st s b.trace.spanCount).2 = Decision.NotSampled := by
    rcases hur with ⟨_, hle, _⟩ | ⟨hd, _, _⟩
    · omega
    · exact hd
  refine ⟨{ (makeProvisionalDecision ps b.evals b.trace).2.2 with
            finalDecision := (updateRate acc.st s ((makeProvisionalDecision ps b.evals b.trace).2.2.spanCount)).2 },
    ?_, ?_⟩
  · simp [tickPass1Step, hprov]
  · simpa [hspan] using hd

/-- Witness for the amended claim C4 theorem at the counterexample's
input. -/
theorem firstPass_over_budget_rejects_witness :
    ∃ tr1, (tickPass1Step [⟨false⟩] 0 ⟨⟨0, 0, 3⟩, 0, 0, []⟩
        ⟨⟨[Decision.Pending], 5, Decision.Unspecified, false, []⟩,
          [EvalResult.ok Decision.Sampled]⟩).out
      = (⟨⟨0, 0, 3⟩, 0, 0, []⟩ : Pass1Acc).out ++ [tr1] ∧
      tr1.finalDecision = Decision.NotSampled :=
  firstPass_over_budget_rejects [⟨false⟩] 0 ⟨⟨0, 0, 3⟩, 0, 0, []⟩
    ⟨⟨[Decision.Pending], 5, Decision.Unspecified, false, []⟩,
      [EvalResult.ok Decision.Sampled]⟩ (by decide) (by decide)

lemma sampledSum_cons (tr : TraceData) (l : List TraceData) :
    sampledSum (tr :: l) =
      (if tr.finalDecision = Decision.Sampled then tr.spanCount else 0) + sampledSum l := by
  by_cases h : tr.finalDecision = Decision.Sampled <;> simp [sampledSum, h]

lemma emittedSpans_cons (o : TraceData × Option TracesT) (l : List (TraceData × Option TracesT)) :
    emittedSpans (o :: l) =
      (if o.2.isSome then o.1.spanCount else 0) + emittedSpans l := by
  by_cases h : o.2.isSome <;> simp [emittedSpans, h]

lemma tickPass1Step_spec (ps : List Policy) (s : Int) (acc : Pass1Acc) (b : TickInput) :
    ∃ tr1, (tickPass1Step ps s acc b).out = acc.out ++ [tr1] ∧
      tr1.spanCount = b.trace.spanCount ∧
      (tickPass1Step ps s acc b).st.maxSpansPerSecond = acc.st.maxSpansPerSecond ∧
      ((tr1.finalDecision = Decision.Sampled ∧
          secondBudget (tickPass1Step ps s acc b).st s
            = secondBudget acc.st s + b.trace.spanCount ∧
          secondBudget (tickPass1Step ps s acc b).st s ≤ acc.st.maxSpansPerSecond) ∨
       (tr1.finalDecision ≠ Decision.Sampled ∧
          secondBudget (tickPass1Step ps s acc b).st s = secondBudget acc.st s)) := by
  have hspan := mpd_spanCount ps b.evals b.trace
  by_cases h1 : (makeProvisionalDecision ps b.evals b.trace).1 = Decision.Sampled
  · obtain ⟨hmax, -, hcase⟩ :=
      updateRate_cases acc.st s ((makeProvisionalDecision ps b.evals b.trace).2.2.spanCount)
    refine ⟨{ (makeProvisionalDecision ps b.evals b.trace).2.2 with
        finalDecision :=
          (updateRate acc.st s ((makeProvisionalDecision ps b.evals b.trace).2.2.spanCount)).2 },
      ?_, by simpa using hspan, ?_, ?_⟩
    · simp [tickPass1Step, h1]
    · simpa [tickPass1Step, h1] using hmax
    · rcases hcase with ⟨hd, hle, heq⟩ | ⟨hd, hlt, heq⟩
      · have hstep : secondBudget (tickPass1Step ps s acc b).st s
            = secondBudget acc.st s + b.trace.spanCount := by
          rw [hspan] at heq
          simpa [tickPass1Step, h1] using heq
        rw [hspan] at hle
        exact Or.inl ⟨by simpa using hd, hstep, by omega⟩
      · have hstep : secondBudget (tickPass1Step ps s acc b).st s = secondBudget acc.st s := by
          simpa [tickPass1Step, h1] using heq
        exact Or.inr ⟨by simp [hd], hstep⟩
  · by_cases h2 : (makeProvisionalDecision ps b.evals b.trace).1 = Decision.SecondChance
    · refine ⟨{ (makeProvisionalDecision ps b.evals b.trace).2.2 with
          finalDecision := Decision.SecondChance }, ?_, by simpa using hspan, ?_, Or.inr ⟨by simp, ?_⟩⟩
      · simp [tickPass1Step, h1, h2]
      · simp [tickPass1Step, h1, h2]
      · simp [tickPass1Step, h1, h2]
    · refine ⟨{ (makeProvisionalDecision ps b.evals b.trace).2.2 with
          finalDecision := (makeProvisionalDecision ps b.evals b.trace).1 },
          ?_, by simpa using hspan, ?_, Or.inr ⟨by simpa using h1, ?_⟩⟩
      · simp [tickPass1Step, h1, h2]
      · simp [tickPass1Step, h1, h2]
      · simp [tickPass1Step, h1, h2]

lemma tickPass1_spec (ps : List Policy) (s : Int) :
    ∀ (bs : List TickInput) (acc : Pass1Acc),
      ∃ newOut, (tickPass1 ps s acc bs).out = acc.out ++ newOut ∧
        sampledSum newOut + secondBudget acc.st s = secondBudget (tickPass1 ps s acc bs).st s ∧
        (tickPass1 ps s acc bs).st.maxSpansPerSecond = acc.st.maxSpansPerSecond ∧
        (secondBudget (tickPass1 ps s acc bs).st s = secondBudget acc.st s ∨
          secondBudget (tickPass1 ps s acc bs).st s ≤ acc.st.maxSpansPerSecond) := by
  intro bs
  induction bs with
  | nil =>
    intro acc
    exact ⟨[], by simp [tickPass1], by simp [tickPass1, sampledSum], rfl, Or.inl rfl⟩
  | cons b bs ih =>
    intro acc
    obtain ⟨tr1, hout1, hspan1, hmax1, hcase1⟩ := tickPass1Step_spec ps s acc b
    obtain ⟨newOut, hout2, hsum2, hmax2, hd2⟩ := ih (tickPass1Step ps s acc b)
    simp only [tickPass1]
    refine ⟨tr1 :: newOut, ?_, ?_, ?_, ?_⟩
    · rw [hout2, hout1, List.append_assoc]
      rfl
    · rw [sampledSum_cons]
      rcases hcase1 with ⟨hd, heq, -⟩ | ⟨hd, heq⟩
      · rw [if_pos hd, hspan1]
        omega
      · rw [if_neg hd]
        omega
    · rw [hmax2, hmax1]
    · rw [hmax1] at hd2
      rcases hcase1 with ⟨-, heq, hle⟩ | ⟨-, heq⟩ <;> rcases hd2 with h | h <;> omega

lemma tickPass2One_spec (s p t : Int) (st : RateState) (tr : TraceData) :
    (tickPass2One s p t st tr).2.1.spanCount = tr.spanCount ∧
    (tickPass2One s p t st tr).2.1.receivedBatches = [] ∧
    (tickPass2One s p t st tr).1.maxSpansPerSecond = st.maxSpansPerSecond ∧
    ((tickPass2One s p t st tr).2.2.isSome ↔
      (tickPass2One s p t st tr).2.1.finalDecision = Decision.Sampled) ∧
    ((if (tickPass2One s p t st tr).2.2.isSome then tr.spanCount else 0)
        + secondBudget st s
      = (if tr.finalDecision = Decision.Sampled then tr.spanCount else 0)
        + secondBudget (tickPass2One s p t st tr).1 s) ∧
    (secondBudget (tickPass2One s p t st tr).1 s = secondBudget st s ∨
      secondBudget (tickPass2One s p t st tr).1 s ≤ st.maxSpansPerSecond) := by
  by_cases hsc : tr.finalDecision = Decision.SecondChance
  · obtain ⟨hmax, -, hcase⟩ := updateRate_cases st s tr.spanCount
    rcases hcase with ⟨hd, hle, heq⟩ | ⟨hd, hlt, heq⟩
    · refine ⟨?_, ?_, ?_, ?_, ?_, ?_⟩ <;>
        simp [tickPass2One, hsc, hd, hmax, heq]
      · omega
      · omega
    · refine ⟨?_, ?_, ?_, ?_, ?_, ?_⟩ <;>
        simp [tickPass2One, hsc, hd, hmax, heq]
  · by_cases hs : tr.finalDecision = Decision.Sampled
    · refine ⟨?_, ?_, ?_, ?_, ?_, ?_⟩ <;> simp [tickPass2One, hsc, hs]
    · refine ⟨?_, ?_, ?_, ?_, ?_, ?_⟩ <;> simp [tickPass2One, hsc, hs]

lemma tickPass2_spec (s p t : Int) :
    ∀ (trs : List TraceData) (st : RateState),
      emittedSpans (tickPass2 s p t st trs).2 + secondBudget st s
        = sampledSum trs + secondBudget (tickPass2 s p t st trs).1 s ∧
      (tickPass2 s p t st trs).1.maxSpansPerSecond = st.maxSpansPerSecond ∧
      (secondBudget (tickPass2 s p t st trs).1 s = secondBudget st s ∨
        secondBudget (tickPass2 s p t st trs).1 s ≤ st.maxSpansPerSecond) := by
  intro trs
  induction trs with
  | nil =>
    intro st
    exact ⟨by simp [tickPass2, emittedSpans, sampledSum], rfl, Or.inl rfl⟩
  | cons tr trs ih =>
    intro st
    obtain ⟨hspan1, -, hmax1, -, heq1, hd1⟩ := tickPass2One_spec s p t st tr
    obtain ⟨heq2, hmax2, hd2⟩ := ih (tickPass2One s p t st tr).1
    simp only [tickPass2]
    refine ⟨?_, ?_, ?_⟩
    · rw [emittedSpans_cons, sampledSum_cons]
      simp only [hspan1]
      omega
    · rw [hmax2, hmax1]
    · rw [hmax1] at hd2
      rcases hd1 with h | h <;> rcases hd2 with h' | h' <;> omega

/-- Claim C1: over one tick of the decision loop (one wall-clock second of
emissions), the total span count of the traces forwarded downstream — by
the first pass and the second-chance pass combined — is at most the
configured spans-per-second budget, because every admission goes through
`updateRate` against the same global counter. -/
theorem tick_emitted_spans_le_budget
    (ps : List Policy) (s : Int) (st : RateState) (batch : List TickInput)
    (h0 : 0 ≤ st.spansInCurrentSecond)
    (hmax : 0 ≤ st.maxSpansPerSecond) :
    emittedSpans (samplingPolicyOnTick ps s st batch).2 ≤ st.maxSpansPerSecond := by
  have hb0 : 0 ≤ secondBudget st s := by
    unfold secondBudget
    split
    · exact h0
    · exact le_refl 0
  obtain ⟨newOut, hout, hsum, hmaxp, hd⟩ := tickPass1_spec ps s batch ⟨st, 0, 0, []⟩
  obtain ⟨heq2, hmax2, hd2⟩ := tickPass2_spec s
      (tickPass1 ps s ⟨st, 0, 0, []⟩ batch).probSpans
      (tickPass1 ps s ⟨st, 0, 0, []⟩ batch).totalSpans
      (tickPass1 ps s ⟨st, 0, 0, []⟩ batch).out
      (tickPass1 ps s ⟨st, 0, 0, []⟩ batch).st
  have hsamp : sampledSum (tickPass1 ps s ⟨st, 0, 0, []⟩ batch).out = sampledSum newOut := by
    rw [hout]
    simp
  simp only [samplingPolicyOnTick]
  dsimp only at hsum hmaxp hd
  omega

/-- Witness for claim C1's theorem on a one-trace batch. -/
theorem tick_emitted_spans_le_budget_witness :
    emittedSpans (samplingPolicyOnTick [⟨false⟩] 0 ⟨0, 0, 10⟩
        [⟨⟨[Decision.Pending], 4, Decision.Unspecified, false, []⟩,
          [EvalResult.ok Decision.Sampled]⟩]).2
      ≤ (⟨0, 0, 10⟩ : RateState).maxSpansPerSecond :=
  tick_emitted_spans_le_budget [⟨false⟩] 0 ⟨0, 0, 10⟩
    [⟨⟨[Decision.Pending], 4, Decision.Unspecified, false, []⟩,
      [EvalResult.ok Decision.Sampled]⟩] (by decide) (by decide)

lemma tickPass1_out_length (ps : List Policy) (s : Int) :
    ∀ (bs : List TickInput) (acc : Pass1Acc),
      (tickPass1 ps s acc bs).out.length = acc.out.length + bs.length := by
  intro bs
  induction bs with
  | nil => intro acc; simp [tickPass1]
  | cons b bs ih =>
    intro acc
    obtain ⟨tr1, hout1, -, -, -⟩ := tickPass1Step_spec ps s acc b
    simp only [tickPass1]
    rw [ih, hout1]
    simp
    omega

lemma tickPass2_length (s p t : Int) :
    ∀ (trs : List TraceData) (st : RateState),
      (tickPass2 s p t st trs).2.length = trs.length := by
  intro trs
  induction trs with
  | nil => intro st; simp [tickPass2]
  | cons tr trs ih => intro st; simp [tickPass2, ih]

lemma tickPass2_outputs (s p t : Int) :
    ∀ (trs : List TraceData) (st : RateState),
      ∀ o ∈ (tickPass2 s p t st trs).2,
        o.1.receivedBatches = [] ∧ (o.2.isSome ↔ o.1.finalDecision = Decision.Sampled) := by
  intro trs
  induction trs with
  | nil => intro st o ho; simp [tickPass2] at ho
  | cons tr trs ih =>
    intro st o ho
    simp only [tickPass2] at ho
    rcases List.mem_cons.mp ho with h | h
    · obtain ⟨-, hrec, -, hiff, -, -⟩ := tickPass2One_spec s p t st tr
      subst h
      exact ⟨hrec, hiff⟩
    · exact ih _ o h

lemma ingestGo_append_pending (grp : List Span) :
    ∀ (ds : List Decision) (i : Nat),
      (ingestGo grp i ds).1 = true → Decision.Pending ∈ ds := by
  intro ds
  induction ds with
  | nil => intro i h; simp [ingestGo] at h
  | cons d ds ih =>
    intro i h
    cases d with
    | Pending => exact List.mem_cons_self _ _
    | Sampled => simp [ingestGo] at h
    | NotSampled => exact List.mem_cons_of_mem _ (ih (i + 1) (by simpa [ingestGo] using h))
    | SecondChance => exact List.mem_cons_of_mem _ (ih (i + 1) (by simpa [ingestGo] using h))
    | Unspecified => exact List.mem_cons_of_mem _ (ih (i + 1) (by simpa [ingestGo] using h))

lemma ingestGo_sampled (grp : List Span) :
    ∀ (ds : List Decision) (i : Nat),
      Decision.Pending ∉ ds → Decision.Sampled ∈ ds →
      ∃ pre j, firstDecisionIdx Decision.Sampled ds = some j ∧
        (ingestGo grp i ds).2 = pre ++ [LateEvent.emitted (i + j) (prepareTraceBatch grp),
          LateEvent.lateHook (i + j) Decision.Sampled] ∧
        (∀ k td, LateEvent.emitted k td ∉ pre) ∧
        (ingestGo grp i ds).1 = false := by
  intro ds
  induction ds with
  | nil => intro i _ h; cases h
  | cons d ds ih =>
    intro i hnp hs
    have hnp' : Decision.Pending ∉ ds := fun hh => hnp (List.mem_cons_of_mem _ hh)
    cases d with
    | Pending => exact absurd (List.mem_cons_self _ _) hnp
    | Sampled =>
      refine ⟨[], 0, by simp [firstDecisionIdx], by simp [ingestGo], by simp, by simp [ingestGo]⟩
    | NotSampled =>
      have hs' : Decision.Sampled ∈ ds := by
        rcases List.mem_cons.mp hs with h | h
        · simp at h
        · exact h
      obtain ⟨pre, j, hidx, hev, hnoem, happ⟩ := ih (i + 1) hnp' hs'
      refine ⟨LateEvent.lateHook i Decision.NotSampled :: pre, j + 1, ?_, ?_, ?_, ?_⟩
      · simp [firstDecisionIdx, hidx]
      · have hn : i + 1 + j = i + (j + 1) := by omega
        simp only [ingestGo, hev, hn, List.cons_append]
      · intro k td hk
        rcases List.mem_cons.mp hk with h | h
        · simp at h
        · exact hnoem k td h
      · simpa [ingestGo] using happ
    | SecondChance =>
      have hs' : Decision.Sampled ∈ ds := by
        rcases List.mem_cons.mp hs with h | h
        · simp at h
        · exact h
      obtain ⟨pre, j, hidx, hev, hnoem, happ⟩ := ih (i + 1) hnp' hs'
      refine ⟨pre, j + 1, ?_, ?_, hnoem, ?_⟩
      · simp [firstDecisionIdx, hidx]
      · have hn : i + 1 + j = i + (j + 1) := by omega
        simp only [ingestGo, hev, hn]
      · simpa [ingestGo] using happ
    | Unspecified =>
      have hs' : Decision.Sampled ∈ ds := by
        rcases List.mem_cons.mp hs with h | h
        · simp at h
        · exact h
      obtain ⟨pre, j, hidx, hev, hnoem, happ⟩ := ih (i + 1) hnp' hs'
      refine ⟨LateEvent.warned i :: pre, j + 1, ?_, ?_, ?_, ?_⟩
      · simp [firstDecisionIdx, hidx]
      · have hn : i + 1 + j = i + (j + 1) := by omega
        simp only [ingestGo, hev, hn, List.cons_append]
      · intro k td hk
        rcases List.mem_cons.mp hk with h | h
        · simp at h
        · exact hnoem k td h
      · simpa [ingestGo] using happ

/-- Claim C5: once a tick has processed a trace, its `receivedBatches` is
empty — the second pass detaches the batches regardless of the decision —
and the ingest policy loop appends a span group at most once per call, and
only when some per-policy decision entry is still Pending. -/
theorem batches_detached_and_append_only_while_pending
    (ps : List Policy) (s : Int) (st : RateState) (batch : List TickInput)
    (ds : List Decision) (received : List TracesT) (grp : List Span) :
    (∀ o ∈ (samplingPolicyOnTick ps s st batch).2, o.1.receivedBatches = []) ∧
    ((ingestSpansForTrace ds received grp).1 = received ∨
      (ingestSpansForTrace ds received grp).1 = received ++ [prepareTraceBatch grp]) ∧
    ((ingestSpansForTrace ds received grp).1 ≠ received → Decision.Pending ∈ ds) := by
  refine ⟨?_, ?_, ?_⟩
  · intro o ho
    simp only [samplingPolicyOnTick] at ho
    exact (tickPass2_outputs s _ _ _ _ o ho).1
  · unfold ingestSpansForTrace
    by_cases h : (ingestGo grp 0 ds).1 <;> simp [h]
  · intro hne
    unfold ingestSpansForTrace at hne
    by_cases h : (ingestGo grp 0 ds).1
    · exact ingestGo_append_pending grp ds 0 h
    · simp [h] at hne

/-- Witness for claim C5's theorem. -/
theorem batches_detached_and_append_only_while_pending_witness :
    (∀ o ∈ (samplingPolicyOnTick [⟨false⟩] 0 ⟨0, 0, 10⟩
        [⟨⟨[Decision.Pending], 4, Decision.Unspecified, false, [[[[⟨[0], []⟩]]]]⟩,
          [EvalResult.ok Decision.Sampled]⟩]).2, o.1.receivedBatches = []) ∧
    ((ingestSpansForTrace [Decision.Pending] [] [⟨[0], []⟩]).1 = [] ∨
      (ingestSpansForTrace [Decision.Pending] [] [⟨[0], []⟩]).1
        = [] ++ [prepareTraceBatch [⟨[0], []⟩]]) ∧
    ((ingestSpansForTrace [Decision.Pending] [] [⟨[0], []⟩]).1 ≠ [] →
      Decision.Pending ∈ [Decision.Pending]) :=
  batches_detached_and_append_only_while_pending [⟨false⟩] 0 ⟨0, 0, 10⟩
    [⟨⟨[Decision.Pending], 4, Decision.Unspecified, false, [[[[⟨[0], []⟩]]]]⟩,
      [EvalResult.ok Decision.Sampled]⟩]
    [Decision.Pending] [] [⟨[0], []⟩]

/-- Claim C6: the decision loop emits each trace at most once — the second
pass yields exactly one output entry per batch entry, which carries a
forwarded trace iff the final decision is Sampled — and a span group
arriving after the per-policy decisions are fixed, when those decisions
contain Sampled, is forwarded downstream exactly once: the event list is
the hooks and warnings of the earlier non-matching policies followed by
exactly one one-off emission plus the Sampled late hook at the first
Sampled policy, where the loop breaks. -/
theorem trace_emitted_once_and_late_sampled_forwarded_once
    (ps : List Policy) (s : Int) (st : RateState) (batch : List TickInput)
    (ds : List Decision) (grp : List Span)
    (hnp : Decision.Pending ∉ ds) (hs : Decision.Sampled ∈ ds) :
    (samplingPolicyOnTick ps s st batch).2.length = batch.length ∧
    (∀ o ∈ (samplingPolicyOnTick ps s st batch).2,
      (o.2.isSome ↔ o.1.finalDecision = Decision.Sampled)) ∧
    (∃ pre j, firstDecisionIdx Decision.Sampled ds = some j ∧
      (ingestGo grp 0 ds).2 = pre ++ [LateEvent.emitted j (prepareTraceBatch grp),
        LateEvent.lateHook j Decision.Sampled] ∧
      (∀ k td, LateEvent.emitted k td ∉ pre) ∧
      (ingestGo grp 0 ds).1 = false) := by
  refine ⟨?_, ?_, ?_⟩
  · simp only [samplingPolicyOnTick]
    rw [tickPass2_length]
    rw [tickPass1_out_length]
    simp
  · intro o ho
    simp only [samplingPolicyOnTick] at ho
    exact (tickPass2_outputs s _ _ _ _ o ho).2
  · obtain ⟨pre, j, hidx, hev, hnoem, happ⟩ := ingestGo_sampled grp ds 0 hnp hs
    exact ⟨pre, j, hidx, by simpa using hev, hnoem, happ⟩

/-- Witness for claim C6's theorem. -/
theorem trace_emitted_once_and_late_sampled_forwarded_once_witness :
    (samplingPolicyOnTick [⟨false⟩] 0 ⟨0, 0, 10⟩
        [⟨⟨[Decision.Pending], 4, Decision.Unspecified, false, []⟩,
          [EvalResult.ok Decision.Sampled]⟩]).2.length = 1 ∧
    (∀ o ∈ (samplingPolicyOnTick [⟨false⟩] 0 ⟨0, 0, 10⟩
        [⟨⟨[Decision.Pending], 4, Decision.Unspecified, false, []⟩,
          [EvalResult.ok Decision.Sampled]⟩]).2,
      (o.2.isSome ↔ o.1.finalDecision = Decision.Sampled)) ∧
    (∃ pre j, firstDecisionIdx Decision.Sampled [Decision.NotSampled, Decision.Sampled] = some j ∧
      (ingestGo [⟨[0], []⟩] 0 [Decision.NotSampled, Decision.Sampled]).2
        = pre ++ [LateEvent.emitted j (prepareTraceBatch [⟨[0], []⟩]),
            LateEvent.lateHook j Decision.Sampled] ∧
      (∀ k td, LateEvent.emitted k td ∉ pre) ∧
      (ingestGo [⟨[0], []⟩] 0 [Decision.NotSampled, Decision.Sampled]).1 = false) :=
  trace_emitted_once_and_late_sampled_forwarded_once [⟨false⟩] 0 ⟨0, 0, 10⟩
    [⟨⟨[Decision.Pending], 4, Decision.Unspecified, false, []⟩,
      [EvalResult.ok Decision.Sampled]⟩]
    [Decision.NotSampled, Decision.Sampled] [⟨[0], []⟩] (by decide) (by decide)

lemma getAttr_upsertAttr_self (attrs : List (String × AttrValue)) (k : String) (v : AttrValue) :
    getAttr (upsertAttr attrs k v) k = some v := by
  induction attrs with
  | nil => simp [upsertAttr, getAttr]
  | cons kv rest ih =>
    obtain ⟨k', v'⟩ := kv
    by_cases h : k' = k
    · simp [upsertAttr, getAttr, h]
    · simp [upsertAttr, getAttr, h, ih]

lemma tagSpan_attr (r : ℚ) (sp : Span) :
    getAttr (tagSpan r sp).attrs attributeSamplingProbability =
      some (AttrValue.double
        (match getAttr sp.attrs attributeSamplingProbability with
          | some (AttrValue.double d) => d * r
          | _ => r)) := by
  unfold tagSpan
  cases hg : getAttr sp.attrs attributeSamplingProbability with
  | none => simp [hg, getAttr_upsertAttr_self]
  | some v => cases v <;> simp [hg, getAttr_upsertAttr_self]

lemma flatSpans_updateTag (tr : TracesT) (p t : Int) :
    flatSpans (updateProbabilisticRateTag tr p t)
      = (flatSpans tr).map (tagSpan ((p : ℚ) / (t : ℚ))) := by
  simp [updateProbabilisticRateTag, flatSpans, ← List.map_flatten]

/-- Claim C7: a trace emitted with `selectedByProbabilisticFilter` set has
every span of its forwarded batch tagged by `updateProbabilisticRateTag`
with ratio probabilisticSpans / totalSpans: the `sampling.probability`
attribute is set to the ratio as a double, or multiplied by the ratio when
it was already present as a double; and the tick invokes the second pass
with exactly the `selectedByProbabilisticFilterSpans` and `totalSpans`
counters accumulated during the first pass. -/
theorem probabilistic_filter_ratio_tagging
    (s p t : Int) (st : RateState) (tr : TraceData)
    (hsel : tr.selectedByProbabilisticFilter = true)
    (e : TracesT) (he : (tickPass2One s p t st tr).2.2 = some e) :
    e = updateProbabilisticRateTag (concatTraces tr.receivedBatches) p t ∧
    flatSpans e = (flatSpans (concatTraces tr.receivedBatches)).map
      (tagSpan ((p : ℚ) / (t : ℚ))) ∧
    (∀ sp : Span,
      getAttr (tagSpan ((p : ℚ) / (t : ℚ)) sp).attrs attributeSamplingProbability =
        some (AttrValue.double
          (match getAttr sp.attrs attributeSamplingProbability with
            | some (AttrValue.double d) => d * ((p : ℚ) / (t : ℚ))
            | _ => (p : ℚ) / (t : ℚ)))) ∧
    (∀ (ps : List Policy) (st1 : RateState) (batch : List TickInput),
      samplingPolicyOnTick ps s st1 batch =
        tickPass2 s (tickPass1 ps s ⟨st1, 0, 0, []⟩ batch).probSpans
          (tickPass1 ps s ⟨st1, 0, 0, []⟩ batch).totalSpans
          (tickPass1 ps s ⟨st1, 0, 0, []⟩ batch).st
          (tickPass1 ps s ⟨st1, 0, 0, []⟩ batch).out) := by
  have he' : e = updateProbabilisticRateTag (concatTraces tr.receivedBatches) p t := by
    by_cases hsc : tr.finalDecision = Decision.SecondChance
    · by_cases hs2 : (updateRate st s tr.spanCount).2 = Decision.Sampled
      · simp [tickPass2One, hsc, hs2, hsel] at he
        exact he.symm
      · simp [tickPass2One, hsc, hs2, hsel] at he
    · by_cases hs3 : tr.finalDecision = Decision.Sampled
      · simp [tickPass2One, hsc, hs3, hsel] at he
        exact he.symm
      · simp [tickPass2One, hsc, hs3, hsel] at he
  refine ⟨he', ?_, fun sp => tagSpan_attr _ sp, fun _ _ _ => rfl⟩
  rw [he']
  exact flatSpans_updateTag _ p t

/-- Witness for claim C7's theorem on a concrete sampled trace. -/
theorem probabilistic_filter_ratio_tagging_witness :
    getAttr (tagSpan (((1 : Int) : ℚ) / ((2 : Int) : ℚ)) ⟨[0], []⟩).attrs
        attributeSamplingProbability =
      some (AttrValue.double
        (match getAttr (Span.mk [0] []).attrs attributeSamplingProbability with
          | some (AttrValue.double d) => d * (((1 : Int) : ℚ) / ((2 : Int) : ℚ))
          | _ => ((1 : Int) : ℚ) / ((2 : Int) : ℚ))) :=
  (probabilistic_filter_ratio_tagging 0 1 2 ⟨0, 0, 10⟩
    ⟨[], 1, Decision.Sampled, true, []⟩ rfl [] (by rfl)).2.2.1 ⟨[0], []⟩

/-- Claim C8: inserting a new trace id preserves the store invariant and
the live-record count never exceeds the `num_traces` ceiling; when the
eviction FIFO is full, the producer synchronously drains the oldest id and
drops that trace before completing the insertion. -/
theorem live_trace_records_bounded (st : StoreState) (k : TraceKey)
    (hinv : storeInv st) (hcap : 1 ≤ st.cap) :
    storeInv (insertNewTrace st k) ∧
    (insertNewTrace st k).numTracesOnMap ≤ st.cap ∧
    (insertNewTrace st k).cap = st.cap ∧
    (st.fifo.length = st.cap →
      ∃ oldest rest, st.fifo = oldest :: rest ∧
        (insertNewTrace st k).store = rest ++ [k] ∧
        (insertNewTrace st k).fifo = rest ++ [k]) := by
  obtain ⟨hf, hn, hle⟩ := hinv
  by_cases hfull : st.fifo.length < st.cap
  · have hins : insertNewTrace st k =
        ⟨st.store ++ [k], st.numTracesOnMap + 1, st.fifo ++ [k], st.cap⟩ := by
      simp [insertNewTrace, hfull]
    rw [hins]
    refine ⟨⟨by simp [hf], by simp [hn], ?_⟩, ?_, rfl, ?_⟩
    · have : st.store.length = st.fifo.length := by rw [hf]
      simp
      omega
    · have : st.store.length = st.fifo.length := by rw [hf]
      simp
      omega
    · intro hfe
      omega
  · have hlen : st.store.length = st.fifo.length := by rw [hf]
    have hfe : st.fifo.length = st.cap := by omega
    cases hfifo : st.fifo with
    | nil =>
      rw [hfifo] at hfe
      simp at hfe
      omega
    | cons oldest rest =>
      have hstore : st.store = oldest :: rest := by rw [← hf]; exact hfifo
      have hmem : oldest ∈ st.store ++ [k] := by
        rw [hstore]
        exact List.mem_append_left _ (List.mem_cons_self _ _)
      have herase : (st.store ++ [k]).erase oldest = rest ++ [k] := by
        rw [hstore, List.cons_append, List.erase_cons_head]
      have hins : insertNewTrace st k =
          ⟨rest ++ [k], st.numTracesOnMap + 1 - 1, rest ++ [k], st.cap⟩ := by
        simp only [insertNewTrace, hfifo, dropTrace]
        rw [if_neg (by simpa [hfifo] using hfull)]
        simp only [hfifo] at hmem herase ⊢
        simp [hmem, herase]
      rw [hins]
      have hlen2 : st.numTracesOnMap = rest.length + 1 := by
        rw [hn, hstore]
        simp
      have hcap2 : rest.length + 1 = st.cap := by
        rw [← hfe, hfifo]
        simp
      refine ⟨⟨rfl, by simp; omega, by simp; omega⟩, by simp; omega, rfl, ?_⟩
      intro _
      exact ⟨oldest, rest, rfl, rfl, rfl⟩

/-- Witness for claim C8's theorem: inserting into a full two-slot store
drops the oldest id. -/
theorem live_trace_records_bounded_witness :
    storeInv (insertNewTrace ⟨[[1], [2]], 2, [[1], [2]], 2⟩ [3]) ∧
    (insertNewTrace ⟨[[1], [2]], 2, [[1], [2]], 2⟩ [3]).numTracesOnMap ≤ 2 ∧
    (insertNewTrace ⟨[[1], [2]], 2, [[1], [2]], 2⟩ [3]).cap = 2 ∧
    (([[1], [2]] : List TraceKey).length = 2 →
      ∃ oldest rest, ([[1], [2]] : List TraceKey) = oldest :: rest ∧
        (insertNewTrace ⟨[[1], [2]], 2, [[1], [2]], 2⟩ [3]).store = rest ++ [[3]] ∧
        (insertNewTrace ⟨[[1], [2]], 2, [[1], [2]], 2⟩ [3]).fifo = rest ++ [[3]]) :=
  live_trace_records_bounded ⟨[[1], [2]], 2, [[1], [2]], 2⟩ [3]
    ⟨by decide, by decide, by decide⟩ (by decide)

lemma lookupGroup_groupInsert (m : List (TraceKey × List Span)) (k k' : TraceKey) (x : Span) :
    lookupGroup (groupInsert m k' x) k =
      if k' = k then lookupGroup m k ++ [x] else lookupGroup m k := by
  induction m with
  | nil => by_cases h : k' = k <;> simp [groupInsert, lookupGroup, h]
  | cons kv rest ih =>
    obtain ⟨k0, sps⟩ := kv
    by_cases h0 : k0 = k'
    · subst h0
      by_cases h1 : k0 = k <;> simp [groupInsert, lookupGroup, h1]
    · by_cases h1 : k' = k
      · subst h1
        simp [groupInsert, lookupGroup, h0, ih]
      · simp [groupInsert, lookupGroup, h0, h1, ih]

lemma groupGo_warn :
    ∀ (spans : List Span) (m : List (TraceKey × List Span)) (w : Nat),
      (groupGo (m, w) spans).2
        = w + (spans.filter (fun sp => sp.traceId.length ≠ 16)).length := by
  intro spans
  induction spans with
  | nil => intro m w; simp [groupGo]
  | cons sp rest ih =>
    intro m w
    by_cases h : sp.traceId.length ≠ 16
    · simp [groupGo, h, ih]
      omega
    · simp [groupGo, h, ih]

lemma groupGo_mono :
    ∀ (spans : List Span) (m : List (TraceKey × List Span)) (w : Nat) (k : TraceKey) (sp : Span),
      sp ∈ lookupGroup m k → sp ∈ lookupGroup (groupGo (m, w) spans).1 k := by
  intro spans
  induction spans with
  | nil => intro m w k sp hm; simpa [groupGo] using hm
  | cons x rest ih =>
    intro m w k sp hm
    simp only [groupGo]
    apply ih
    rw [lookupGroup_groupInsert]
    by_cases h : x.traceId = k
    · simp only [if_pos h]
      exact List.mem_append_left _ hm
    · simpa [h] using hm

lemma groupGo_adds :
    ∀ (spans : List Span) (m : List (TraceKey × List Span)) (w : Nat) (sp : Span),
      sp ∈ spans → sp ∈ lookupGroup (groupGo (m, w) spans).1 sp.traceId := by
  intro spans
  induction spans with
  | nil => intro m w sp h; cases h
  | cons x rest ih =>
    intro m w sp hsp
    rcases List.mem_cons.mp hsp with h | h
    · subst h
      simp only [groupGo]
      apply groupGo_mono
      rw [lookupGroup_groupInsert]
      simp
    · simp only [groupGo]
      exact ih _ _ sp h

/-- Claim C9: grouping logs exactly one warning per span whose trace id is
not 16 bytes, and every span — whatever its id length — is still grouped
under the key formed from its id bytes. -/
theorem invalid_trace_ids_logged_and_grouped (ilss : List (List Span)) :
    (groupSpansByTraceKey ilss).2
      = ((ilss.flatten).filter (fun sp => sp.traceId.length ≠ 16)).length ∧
    ∀ sp ∈ ilss.flatten, sp ∈ lookupGroup (groupSpansByTraceKey ilss).1 sp.traceId := by
  constructor
  · simpa using groupGo_warn ilss.flatten [] 0
  · intro sp hsp
    exact groupGo_adds ilss.flatten [] 0 sp hsp

/-- Witness for claim C9's theorem: a span with a 2-byte trace id is
warned about once and still grouped under its bytes. -/
theorem invalid_trace_ids_logged_and_grouped_witness :
    (groupSpansByTraceKey [[⟨[1, 2], []⟩]]).2
      = (([[⟨[1, 2], []⟩]] : List (List Span)).flatten.filter
          (fun sp => sp.traceId.length ≠ 16)).length ∧
    (⟨[1, 2], []⟩ : Span) ∈ lookupGroup (groupSpansByTraceKey [[⟨[1, 2], []⟩]]).1 [1, 2] :=
  ⟨(invalid_trace_ids_logged_and_grouped [[⟨[1, 2], []⟩]]).1,
    (invalid_trace_ids_logged_and_grouped [[⟨[1, 2], []⟩]]).2 ⟨[1, 2], []⟩ (by decide)⟩

end CascadingFilter
